import Mathlib

/-!
Verification of the order-book matching core of the crescent liquidity module.

The development shallowly embeds the Go sources:
  * `x/liquidity/types/events.go` (second compilation unit, package `amm`):
    `FindLastMatchableOrders`, `MatchOrders`;
  * `x/liquidity/amm/match.go`: `FindMatchPrice`, `findFirstTrueCondition`,
    `OrderBook.InstantMatch`, `DistributeOrderAmount`, `MatchContext` and its
    operations.

`sdk.Dec` (18-decimal fixed point) is modelled by `ℚ` together with explicit
truncation operators (`truncInt`, `trunc18`) reproducing `TruncateInt`,
`Ceil().TruncateInt()` and `QuoTruncate`.  `sdk.Int` is modelled by `ℤ`.
-/

/-- Direction of an order (`OrderDirection` in package `amm`). -/
inductive OrderDirection where
  | Buy : OrderDirection
  | Sell : OrderDirection
deriving DecidableEq, Repr

/-- Modelled from the spec: the `Order` interface of the engine is not among
the provided source files; its accessible properties follow spec §3/§4.2
(`id`, `direction`, `price`, `amount`, `open_amount`, `remaining_offer_coin`,
`received_demand_coin`, `matched`, `batch_id`).  The mutators used by
`MatchOrders` act on the corresponding fields; `DecrRemainingOfferCoin`
decrements and `IncrReceivedDemandCoin` increments, per their names and the
spec lifecycle ("remaining_offer_coin decreases monotonically,
received_demand_coin increases monotonically"). -/
structure Order where
  id : ℕ
  direction : OrderDirection
  price : ℚ
  amount : ℤ
  openAmount : ℤ
  remainingOfferCoin : ℤ
  receivedDemandCoin : ℤ
  matched : Bool
  batchId : ℕ
deriving DecidableEq, Repr

instance : Inhabited Order :=
  ⟨⟨0, OrderDirection.Buy, 0, 0, 0, 0, 0, false, 0⟩⟩

/-- Models `sdk.Dec.TruncateInt`: truncation of a decimal toward zero. -/
def truncInt (q : ℚ) : ℤ :=
  if 0 ≤ q then ⌊q⌋ else ⌈q⌉

/-- Chopping a decimal to 18 fractional digits toward zero, as every
`sdk.Dec` result is stored with scale `10^18`. -/
def trunc18 (q : ℚ) : ℚ :=
  (truncInt (q * 10 ^ 18) : ℚ) / 10 ^ 18

/-- Models `sdk.Dec.QuoTruncate`: division whose result is truncated (toward zero)
to 18 fractional digits. -/
def quoTruncate (x y : ℚ) : ℚ :=
  trunc18 (x / y)

theorem truncInt_eq_floor {q : ℚ} (h : 0 ≤ q) : truncInt q = ⌊q⌋ := by
  simp [truncInt, h]

theorem truncInt_nonneg {q : ℚ} (h : 0 ≤ q) : 0 ≤ truncInt q := by
  rw [truncInt_eq_floor h]
  exact Int.floor_nonneg.mpr h

/-- Total open amount of a list of orders (`TotalOpenAmount` helper in
package `amm`, summing `GetOpenAmount`). -/
def totalOpen (l : List Order) : ℤ :=
  (l.map (fun o => o.openAmount)).sum

/-- Sum of the open amounts of the first `n` orders of a list. -/
def sumOpenTo (l : List Order) (n : ℕ) : ℤ :=
  ((l.take n).map (fun o => o.openAmount)).sum

theorem sumOpenTo_length (l : List Order) : sumOpenTo l l.length = totalOpen l := by
  simp [sumOpenTo, totalOpen]

theorem sumOpenTo_succ (l : List Order) (n : ℕ) (h : n < l.length) :
    sumOpenTo l (n + 1) = sumOpenTo l n + (l.getD n default).openAmount := by
  simp only [sumOpenTo, List.take_succ, List.map_append, List.sum_append]
  have h1 : l[n]? = some l[n] := List.getElem?_eq_getElem h
  simp [h1, List.getD_eq_getElem?_getD]

theorem sumOpenTo_zero (l : List Order) : sumOpenTo l 0 = 0 := by
  simp [sumOpenTo]

/-!
## `FindLastMatchableOrders` (events.go, lines 100–144)

The Go loop repeatedly examines the current last order on each side
(iterating over a two-element map whose iteration order Go does not fix;
the embedding fixes the order Buy-then-Sell, matching the map literal) and
drops it when the other orders already cover the match amount or, on the
sell side, when the partially matched portion would receive zero quote coin
after truncation.  State per side: total open amount of the remaining
candidate orders and the index of the last candidate.
-/

/-- Result of one pass of the `FindLastMatchableOrders` loop. -/
inductive FlmoStep where
  | noMatch : FlmoStep
  | found : ℕ → ℕ → ℤ → ℤ → FlmoStep
  | next : ℤ → ℤ → ℕ → ℕ → FlmoStep
deriving DecidableEq

/-- One pass of the loop body of `FindLastMatchableOrders`: check the buy
side, then the sell side (with the buy total already updated when the buy
order was dropped, as the Go code reads the sides' totals at each check). -/
def flmoPass (buys sells : List Order) (P : ℚ) (bt st : ℤ) (bi si : ℕ) : FlmoStep :=
  if min bt st ≤ bt - (buys.getD bi default).openAmount then
    if bi = 0 then FlmoStep.noMatch
    else
      if min (bt - (buys.getD bi default).openAmount) st
            ≤ st - (sells.getD si default).openAmount ∨
          truncInt (P * ((min (bt - (buys.getD bi default).openAmount) st
            - (st - (sells.getD si default).openAmount) : ℤ) : ℚ)) = 0 then
        if si = 0 then FlmoStep.noMatch
        else
          FlmoStep.next (bt - (buys.getD bi default).openAmount)
            (st - (sells.getD si default).openAmount) (bi - 1) (si - 1)
      else FlmoStep.next (bt - (buys.getD bi default).openAmount) st (bi - 1) si
  else
    if min bt st ≤ st - (sells.getD si default).openAmount ∨
        truncInt (P * ((min bt st
          - (st - (sells.getD si default).openAmount) : ℤ) : ℚ)) = 0 then
      if si = 0 then FlmoStep.noMatch
      else FlmoStep.next bt (st - (sells.getD si default).openAmount) bi (si - 1)
    else
      FlmoStep.found bi si (min bt st - (bt - (buys.getD bi default).openAmount))
        (min bt st - (st - (sells.getD si default).openAmount))

/-- The loop of `FindLastMatchableOrders`; the fuel bounds the number of
passes (each pass that continues drops at least one order). -/
def flmoLoop (buys sells : List Order) (P : ℚ) :
    ℕ → ℤ → ℤ → ℕ → ℕ → Option (ℕ × ℕ × ℤ × ℤ)
  | 0, _, _, _, _ => none
  | fuel + 1, bt, st, bi, si =>
    match flmoPass buys sells P bt st bi si with
    | FlmoStep.noMatch => none
    | FlmoStep.found a b c d => some (a, b, c, d)
    | FlmoStep.next bt2 st2 bi2 si2 => flmoLoop buys sells P fuel bt2 st2 bi2 si2

/-- Embeds `FindLastMatchableOrders` from events.go: returns the last matchable
order index on each side and the partially matched amount of each last
order, or `none` when the sides are not matchable. -/
def findLastMatchableOrders (buys sells : List Order) (P : ℚ) :
    Option (ℕ × ℕ × ℤ × ℤ) :=
  if buys.isEmpty || sells.isEmpty then none
  else
    flmoLoop buys sells P (buys.length + sells.length)
      (totalOpen buys) (totalOpen sells) (buys.length - 1) (sells.length - 1)

/-!
## `MatchOrders` (events.go, lines 151–192)

Orders `0..bi-1` on the buy side are fully matched (fill = open amount),
order `bi` partially (fill = `pmb`); a buy order pays
`matchPrice.MulInt(fill).Ceil().TruncateInt() = ⌈P·fill⌉` quote coin and
receives `fill` base coin.  Sell orders are symmetric with
`TruncateInt` (truncation toward zero) on the received quote coin.
-/

/-- Field updates `MatchOrders` applies to a buy order for a fill. -/
def applyBuyFill (P : ℚ) (o : Order) (fill : ℤ) : Order :=
  { o with
    openAmount := o.openAmount - fill
    remainingOfferCoin := o.remainingOfferCoin - ⌈P * (fill : ℚ)⌉
    receivedDemandCoin := o.receivedDemandCoin + fill
    matched := true }

/-- Field updates `MatchOrders` applies to a sell order for a fill. -/
def applySellFill (P : ℚ) (o : Order) (fill : ℤ) : Order :=
  { o with
    openAmount := o.openAmount - fill
    remainingOfferCoin := o.remainingOfferCoin - fill
    receivedDemandCoin := o.receivedDemandCoin + truncInt (P * (fill : ℚ))
    matched := true }

/-- The buy loop of `MatchOrders`: orders before index `bi` are filled with
their whole open amount, order `bi` with `pm`, later orders untouched. -/
def applyBuyFills (P : ℚ) : List Order → ℕ → ℤ → List Order
  | [], _, _ => []
  | o :: os, 0, pm => applyBuyFill P o pm :: os
  | o :: os, k + 1, pm => applyBuyFill P o o.openAmount :: applyBuyFills P os k pm

/-- The sell loop of `MatchOrders`. -/
def applySellFills (P : ℚ) : List Order → ℕ → ℤ → List Order
  | [], _, _ => []
  | o :: os, 0, pm => applySellFill P o pm :: os
  | o :: os, k + 1, pm => applySellFill P o o.openAmount :: applySellFills P os k pm

/-- Total quote coin paid by the matched buy orders
(`Σ ⌈P·fill⌉`, accumulated into `quoteCoinDust` by the buy loop). -/
def buyPaidSum (P : ℚ) : List Order → ℕ → ℤ → ℤ
  | [], _, _ => 0
  | _ :: _, 0, pm => ⌈P * (pm : ℚ)⌉
  | o :: os, k + 1, pm => ⌈P * ((o.openAmount : ℤ) : ℚ)⌉ + buyPaidSum P os k pm

/-- Total quote coin received by the matched sell orders
(`Σ truncInt (P·fill)`, subtracted from `quoteCoinDust` by the sell loop). -/
def sellRecvSum (P : ℚ) : List Order → ℕ → ℤ → ℤ
  | [], _, _ => 0
  | _ :: _, 0, pm => truncInt (P * (pm : ℚ))
  | o :: os, k + 1, pm => truncInt (P * ((o.openAmount : ℤ) : ℚ)) + sellRecvSum P os k pm

/-- Embeds `MatchOrders` from events.go.  Returns the updated order lists and
`some quoteCoinDust` on a match, or the unchanged lists and `none` when the
orders are not matchable. -/
def matchOrders (buys sells : List Order) (P : ℚ) :
    List Order × List Order × Option ℤ :=
  match findLastMatchableOrders buys sells P with
  | none => (buys, sells, none)
  | some (bi, si, pmb, pms) =>
    (applyBuyFills P buys bi pmb, applySellFills P sells si pms,
      some (buyPaidSum P buys bi pmb - sellRecvSum P sells si pms))

example :
    findLastMatchableOrders
      [⟨1, OrderDirection.Buy, 10, 100, 100, 0, 0, false, 0⟩,
       ⟨2, OrderDirection.Buy, 10, 30, 30, 0, 0, false, 0⟩]
      [⟨3, OrderDirection.Sell, 10, 110, 110, 0, 0, false, 0⟩]
      10 = some (1, 0, 10, 110) := by with_unfolding_all decide

example :
    (matchOrders
      [⟨1, OrderDirection.Buy, 10, 100, 100, 0, 0, false, 0⟩]
      [⟨3, OrderDirection.Sell, 10, 100, 100, 0, 0, false, 0⟩]
      10).2.2 = some 0 := by with_unfolding_all decide

theorem sumOpenTo_cons (o : Order) (os : List Order) (n : ℕ) :
    sumOpenTo (o :: os) (n + 1) = o.openAmount + sumOpenTo os n := by
  simp [sumOpenTo]

/-- Invariant analysis of the `FindLastMatchableOrders` loop: whenever it
returns a result, both indices are in range, each side's partially matched
amount completes the fully matched prefix to
`min(buy total, sell total)` of the surviving candidates, the partial
amounts are positive and bounded by the last orders' open amounts, and the
sell-side partial amount survives the zero-quote truncation test. -/
theorem flmoLoop_found (buys sells : List Order) (P : ℚ) :
    ∀ fuel bt st bi si bi2 si2 pmb pms,
      bi < buys.length → si < sells.length →
      bt = sumOpenTo buys (bi + 1) → st = sumOpenTo sells (si + 1) →
      flmoLoop buys sells P fuel bt st bi si = some (bi2, si2, pmb, pms) →
      bi2 < buys.length ∧ si2 < sells.length ∧
      pmb + sumOpenTo buys bi2
          = min (sumOpenTo buys (bi2 + 1)) (sumOpenTo sells (si2 + 1)) ∧
      pms + sumOpenTo sells si2
          = min (sumOpenTo buys (bi2 + 1)) (sumOpenTo sells (si2 + 1)) ∧
      0 < pmb ∧ 0 < pms ∧
      pmb ≤ (buys.getD bi2 default).openAmount ∧
      pms ≤ (sells.getD si2 default).openAmount ∧
      truncInt (P * (pms : ℚ)) ≠ 0 := by
  intro fuel
  induction fuel with
  | zero => intro bt st bi si bi2 si2 pmb pms _ _ _ _ h; simp [flmoLoop] at h
  | succ fuel ih =>
    intro bt st bi si bi2 si2 pmb pms hbi hsi hbt hst h
    rw [flmoLoop] at h
    rcases hstep : flmoPass buys sells P bt st bi si with _ | ⟨a, b, c, d⟩ | ⟨bt2, st2, bi3, si3⟩ <;>
      rw [hstep] at h
    · simp at h
    · -- found case
      simp only [Option.some.injEq, Prod.mk.injEq] at h
      obtain ⟨rfl, rfl, rfl, rfl⟩ := h
      unfold flmoPass at hstep
      split_ifs at hstep with c1 c2 c3 c4 c5 c6 <;> injection hstep with e1 e2 e3 e4
      subst e1; subst e2; subst e3; subst e4
      push_neg at c5
      obtain ⟨c5a, c5b⟩ := c5
      have hsb := sumOpenTo_succ buys bi hbi
      have hss := sumOpenTo_succ sells si hsi
      rw [← hbt] at hsb
      rw [← hst] at hss
      refine ⟨hbi, hsi, ?_, ?_, ?_, ?_, ?_, ?_, c5b⟩
      · rw [← hbt, ← hst]; omega
      · rw [← hbt, ← hst]; omega
      · omega
      · omega
      · omega
      · omega
    · -- next case: apply the induction hypothesis with the updated invariant
      unfold flmoPass at hstep
      split_ifs at hstep with c1 c2 c3 c4 c5 c6 <;> injection hstep with e1 e2 e3 e4 <;>
        subst e1 <;> subst e2 <;> subst e3 <;> subst e4
      · -- buy dropped, then sell dropped in the same pass
        have hsb := sumOpenTo_succ buys bi hbi
        have hss := sumOpenTo_succ sells si hsi
        have eb : bi - 1 + 1 = bi := by omega
        have es : si - 1 + 1 = si := by omega
        apply ih _ _ _ _ _ _ _ _ (by omega) (by omega) ?_ ?_ h
        · rw [eb]; omega
        · rw [es]; omega
      · -- only the buy order dropped
        have hsb := sumOpenTo_succ buys bi hbi
        have eb : bi - 1 + 1 = bi := by omega
        apply ih _ _ _ _ _ _ _ _ (by omega) hsi ?_ hst h
        rw [eb]; omega
      · -- only the sell order dropped
        have hss := sumOpenTo_succ sells si hsi
        have es : si - 1 + 1 = si := by omega
        apply ih _ _ _ _ _ _ _ _ hbi (by omega) hbt ?_ h
        rw [es]; omega

/-- Specification of `FindLastMatchableOrders` on success, obtained from the
loop invariant and the initial state (whole-side totals, last indices). -/
theorem flmo_spec (buys sells : List Order) (P : ℚ) (bi si : ℕ) (pmb pms : ℤ)
    (h : findLastMatchableOrders buys sells P = some (bi, si, pmb, pms)) :
    bi < buys.length ∧ si < sells.length ∧
    pmb + sumOpenTo buys bi
        = min (sumOpenTo buys (bi + 1)) (sumOpenTo sells (si + 1)) ∧
    pms + sumOpenTo sells si
        = min (sumOpenTo buys (bi + 1)) (sumOpenTo sells (si + 1)) ∧
    0 < pmb ∧ 0 < pms ∧
    pmb ≤ (buys.getD bi default).openAmount ∧
    pms ≤ (sells.getD si default).openAmount ∧
    truncInt (P * (pms : ℚ)) ≠ 0 := by
  rw [findLastMatchableOrders] at h
  by_cases hemp : (buys.isEmpty || sells.isEmpty) = true
  · rw [if_pos hemp] at h; exact absurd h (by simp)
  · rw [if_neg hemp] at h
    have hb0 : 0 < buys.length := by
      rcases buys with _ | ⟨x, xs⟩
      · simp at hemp
      · simp
    have hs0 : 0 < sells.length := by
      rcases sells with _ | ⟨x, xs⟩
      · simp at hemp
      · simp
    have hbsucc : buys.length - 1 + 1 = buys.length := by omega
    have hssucc : sells.length - 1 + 1 = sells.length := by omega
    exact flmoLoop_found buys sells P (buys.length + sells.length)
      (totalOpen buys) (totalOpen sells) (buys.length - 1) (sells.length - 1)
      bi si pmb pms (by omega) (by omega)
      (by rw [hbsucc, sumOpenTo_length])
      (by rw [hssucc, sumOpenTo_length]) h

/-- Helper: an in-range `getD` is a member of the list. -/
theorem getD_mem {l : List Order} {i : ℕ} (h : i < l.length) :
    l.getD i default ∈ l := by
  rw [List.getD_eq_getElem?_getD, List.getElem?_eq_getElem h]
  exact List.getElem_mem h

/-- Claim C7: when `FindLastMatchableOrders` finds nothing, `MatchOrders`
returns "not matched" and both order lists unchanged. -/
theorem matchOrders_noMatch_id (buys sells : List Order) (P : ℚ)
    (h : findLastMatchableOrders buys sells P = none) :
    matchOrders buys sells P = (buys, sells, none) := by
  rw [matchOrders, h]

theorem matchOrders_noMatch_id_witness :
    matchOrders [] [⟨3, OrderDirection.Sell, 10, 5, 5, 0, 0, false, 0⟩] 10
      = ([], [⟨3, OrderDirection.Sell, 10, 5, 5, 0, 0, false, 0⟩], none) :=
  matchOrders_noMatch_id [] [⟨3, OrderDirection.Sell, 10, 5, 5, 0, 0, false, 0⟩] 10 rfl

/-- Claim C10: on success, both partial match amounts are positive, bounded
by the open amount of the order at the returned index, and the sell-side
partial amount yields a strictly positive truncated quote amount. -/
theorem flmo_partial_amounts (buys sells : List Order) (P : ℚ)
    (bi si : ℕ) (pmb pms : ℤ) (hP : 0 ≤ P)
    (h : findLastMatchableOrders buys sells P = some (bi, si, pmb, pms)) :
    0 < pmb ∧ 0 < pms ∧
    pmb ≤ (buys.getD bi default).openAmount ∧
    pms ≤ (sells.getD si default).openAmount ∧
    0 < ⌊P * (pms : ℚ)⌋ := by
  obtain ⟨_, _, _, _, h5, h6, h7, h8, h9⟩ := flmo_spec buys sells P bi si pmb pms h
  refine ⟨h5, h6, h7, h8, ?_⟩
  have hq : (0 : ℚ) ≤ P * (pms : ℚ) := by
    apply mul_nonneg hP
    exact_mod_cast le_of_lt h6
  rw [truncInt_eq_floor hq] at h9
  have := Int.floor_nonneg.mpr hq
  omega

def cexBuys1 : List Order :=
  [⟨1, OrderDirection.Buy, 10, 100, 100, 0, 0, false, 0⟩,
   ⟨2, OrderDirection.Buy, 10, 30, 30, 0, 0, false, 0⟩]

def cexSells1 : List Order :=
  [⟨3, OrderDirection.Sell, 10, 110, 110, 0, 0, false, 0⟩]

theorem flmo_partial_amounts_witness :
    0 < (10 : ℤ) ∧ 0 < (110 : ℤ) ∧
    (10 : ℤ) ≤ (cexBuys1.getD 1 default).openAmount ∧
    (110 : ℤ) ≤ (cexSells1.getD 0 default).openAmount ∧
    0 < ⌊(10 : ℚ) * ((110 : ℤ) : ℚ)⌋ :=
  flmo_partial_amounts cexBuys1 cexSells1 10 1 0 10 110 (by norm_num)
    (by with_unfolding_all decide)

/-!
## Conservation across `MatchOrders` (claim C1)

`openDecrease` measures, position by position, the base amount taken out of
the open amounts by a run of `MatchOrders`; `quotePaidOf` and `quoteRecvOf`
recompute the quote legs from those per-order decreases.
-/

def openDecrease (old new : List Order) : ℤ :=
  (List.zipWith (fun a b => a.openAmount - b.openAmount) old new).sum

def quotePaidOf (P : ℚ) (old new : List Order) : ℤ :=
  (List.zipWith (fun a b => ⌈P * ((a.openAmount - b.openAmount : ℤ) : ℚ)⌉) old new).sum

def quoteRecvOf (P : ℚ) (old new : List Order) : ℤ :=
  (List.zipWith (fun a b => ⌊P * ((a.openAmount - b.openAmount : ℤ) : ℚ)⌋) old new).sum

theorem openDecrease_self (l : List Order) : openDecrease l l = 0 := by
  induction l with
  | nil => simp [openDecrease]
  | cons o os ih => simp [openDecrease]

theorem quotePaidOf_self (P : ℚ) (l : List Order) : quotePaidOf P l l = 0 := by
  induction l with
  | nil => simp [quotePaidOf]
  | cons o os ih => simp [quotePaidOf]

theorem quoteRecvOf_self (P : ℚ) (l : List Order) : quoteRecvOf P l l = 0 := by
  induction l with
  | nil => simp [quoteRecvOf]
  | cons o os ih => simp [quoteRecvOf]

theorem openDecrease_applyBuyFills (P : ℚ) :
    ∀ (l : List Order) (k : ℕ) (pm : ℤ), k < l.length →
      openDecrease l (applyBuyFills P l k pm) = sumOpenTo l k + pm := by
  intro l
  induction l with
  | nil => intro k pm h; simp at h
  | cons o os ih =>
    intro k pm h
    cases k with
    | zero =>
      simp [openDecrease, applyBuyFills, applyBuyFill, sumOpenTo_zero]
    | succ k =>
      have hk : k < os.length := by simpa using h
      have := ih k pm hk
      simp [openDecrease, applyBuyFills, applyBuyFill, sumOpenTo_cons] at this ⊢
      omega

theorem openDecrease_applySellFills (P : ℚ) :
    ∀ (l : List Order) (k : ℕ) (pm : ℤ), k < l.length →
      openDecrease l (applySellFills P l k pm) = sumOpenTo l k + pm := by
  intro l
  induction l with
  | nil => intro k pm h; simp at h
  | cons o os ih =>
    intro k pm h
    cases k with
    | zero =>
      simp [openDecrease, applySellFills, applySellFill, sumOpenTo_zero]
    | succ k =>
      have hk : k < os.length := by simpa using h
      have := ih k pm hk
      simp [openDecrease, applySellFills, applySellFill, sumOpenTo_cons] at this ⊢
      omega

theorem quotePaidOf_applyBuyFills (P : ℚ) :
    ∀ (l : List Order) (k : ℕ) (pm : ℤ),
      quotePaidOf P l (applyBuyFills P l k pm) = buyPaidSum P l k pm := by
  intro l
  induction l with
  | nil => intro k pm; simp [quotePaidOf, applyBuyFills, buyPaidSum]
  | cons o os ih =>
    intro k pm
    cases k with
    | zero =>
      simp [quotePaidOf, applyBuyFills, applyBuyFill, buyPaidSum]
    | succ k =>
      have := ih k pm
      simp [quotePaidOf, applyBuyFills, applyBuyFill, buyPaidSum] at this ⊢
      simp [this]

theorem quoteRecvOf_applySellFills (P : ℚ) (hP : 0 ≤ P) :
    ∀ (l : List Order) (k : ℕ) (pm : ℤ),
      (∀ o ∈ l, 0 ≤ o.openAmount) → 0 ≤ pm →
      quoteRecvOf P l (applySellFills P l k pm) = sellRecvSum P l k pm := by
  intro l
  induction l with
  | nil => intro k pm _ _; simp [quoteRecvOf, applySellFills, sellRecvSum]
  | cons o os ih =>
    intro k pm hl hpm
    have hqm : (0 : ℚ) ≤ P * (pm : ℚ) := mul_nonneg hP (by exact_mod_cast hpm)
    have hqo : (0 : ℚ) ≤ P * ((o.openAmount : ℤ) : ℚ) := by
      apply mul_nonneg hP
      exact_mod_cast hl o (by simp)
    cases k with
    | zero =>
      simp [quoteRecvOf, applySellFills, applySellFill, sellRecvSum,
        truncInt_eq_floor hqm]
    | succ k =>
      have := ih k pm (fun x hx => hl x (by simp [hx])) hpm
      simp [quoteRecvOf, applySellFills, applySellFill, sellRecvSum,
        truncInt_eq_floor hqo] at this ⊢
      simp [this]

/-- Claim C1: on a successful match the total base amount removed from the
buy side equals the total removed from the sell side, and the returned
quote coin dust is exactly `Σ ⌈P·b⌉ − Σ ⌊P·s⌋` over the per-order fills. -/
theorem matchOrders_conservation (buys sells b2 s2 : List Order) (P : ℚ) (dust : ℤ)
    (hP : 0 ≤ P) (hs : ∀ o ∈ sells, 0 ≤ o.openAmount)
    (h : matchOrders buys sells P = (b2, s2, some dust)) :
    openDecrease buys b2 = openDecrease sells s2 ∧
    dust = quotePaidOf P buys b2 - quoteRecvOf P sells s2 := by
  rcases hf : findLastMatchableOrders buys sells P with _ | ⟨bi, si, pmb, pms⟩
  · rw [matchOrders, hf] at h
    simp at h
  · rw [matchOrders, hf] at h
    simp only [Prod.mk.injEq, Option.some.injEq] at h
    obtain ⟨rfl, rfl, rfl⟩ := h
    obtain ⟨h1, h2, h3, h4, h5, h6, _, _, _⟩ := flmo_spec buys sells P bi si pmb pms hf
    constructor
    · rw [openDecrease_applyBuyFills P buys bi pmb h1,
        openDecrease_applySellFills P sells si pms h2]
      omega
    · rw [quotePaidOf_applyBuyFills P buys bi pmb,
        quoteRecvOf_applySellFills P hP sells si pms hs (le_of_lt h6)]

set_option maxRecDepth 4000 in
theorem matchOrders_conservation_witness :
    openDecrease cexBuys1 (matchOrders cexBuys1 cexSells1 10).1
      = openDecrease cexSells1 (matchOrders cexBuys1 cexSells1 10).2.1 ∧
    (0 : ℤ) = quotePaidOf 10 cexBuys1 (matchOrders cexBuys1 cexSells1 10).1
      - quoteRecvOf 10 cexSells1 (matchOrders cexBuys1 cexSells1 10).2.1 :=
  matchOrders_conservation cexBuys1 cexSells1 _ _ 10 0 (by norm_num)
    (by with_unfolding_all decide) (by with_unfolding_all decide)

/-!
## Per-order updates of `MatchOrders` (claim C5)
-/

/-- The base fill `MatchOrders` gives order `i` of a side whose last
matchable index is `k` and whose last order is filled by `pm`. -/
def fillAt (l : List Order) (k : ℕ) (pm : ℤ) (i : ℕ) : ℤ :=
  if i < k then (l.getD i default).openAmount else pm

theorem getD_applyBuyFills (P : ℚ) :
    ∀ (l : List Order) (k : ℕ) (pm : ℤ) (i : ℕ), i < l.length →
      (applyBuyFills P l k pm).getD i default =
        if i < k then applyBuyFill P (l.getD i default) (l.getD i default).openAmount
        else if i = k then applyBuyFill P (l.getD i default) pm
        else l.getD i default := by
  intro l
  induction l with
  | nil => intro k pm i h; simp at h
  | cons o os ih =>
    intro k pm i h
    cases k with
    | zero =>
      cases i with
      | zero => simp [applyBuyFills]
      | succ i => simp [applyBuyFills]
    | succ k =>
      cases i with
      | zero => simp [applyBuyFills]
      | succ i =>
        have hi : i < os.length := by simpa using h
        simp only [applyBuyFills, List.getD_cons_succ]
        rw [ih k pm i hi]
        simp [Nat.succ_lt_succ_iff]

theorem getD_applySellFills (P : ℚ) :
    ∀ (l : List Order) (k : ℕ) (pm : ℤ) (i : ℕ), i < l.length →
      (applySellFills P l k pm).getD i default =
        if i < k then applySellFill P (l.getD i default) (l.getD i default).openAmount
        else if i = k then applySellFill P (l.getD i default) pm
        else l.getD i default := by
  intro l
  induction l with
  | nil => intro k pm i h; simp at h
  | cons o os ih =>
    intro k pm i h
    cases k with
    | zero =>
      cases i with
      | zero => simp [applySellFills]
      | succ i => simp [applySellFills]
    | succ k =>
      cases i with
      | zero => simp [applySellFills]
      | succ i =>
        have hi : i < os.length := by simpa using h
        simp only [applySellFills, List.getD_cons_succ]
        rw [ih k pm i hi]
        simp [Nat.succ_lt_succ_iff]

/-- Claim C5 (amended): when `MatchOrders` commits a fill of base amount
`fill` at price `P` to an order, it decrements the order's open amount by
`fill`; a buy order has its remaining offer coin DECREMENTED by `⌈P·fill⌉`
and its received demand coin incremented by `fill`; a sell order has its
remaining offer coin decremented by `fill` and its received demand coin
incremented by `⌊P·fill⌋`; and every matched order gets `matched = true`. -/
theorem matchOrders_fill_updates (buys sells : List Order) (P : ℚ)
    (bi si : ℕ) (pmb pms : ℤ) (hP : 0 ≤ P)
    (hs : ∀ o ∈ sells, 0 ≤ o.openAmount)
    (h : findLastMatchableOrders buys sells P = some (bi, si, pmb, pms)) :
    (∀ i, i < buys.length → i ≤ bi →
      ((matchOrders buys sells P).1.getD i default).openAmount
          = (buys.getD i default).openAmount - fillAt buys bi pmb i ∧
      ((matchOrders buys sells P).1.getD i default).remainingOfferCoin
          = (buys.getD i default).remainingOfferCoin
            - ⌈P * ((fillAt buys bi pmb i : ℤ) : ℚ)⌉ ∧
      ((matchOrders buys sells P).1.getD i default).receivedDemandCoin
          = (buys.getD i default).receivedDemandCoin + fillAt buys bi pmb i ∧
      ((matchOrders buys sells P).1.getD i default).matched = true) ∧
    (∀ i, i < sells.length → i ≤ si →
      ((matchOrders buys sells P).2.1.getD i default).openAmount
          = (sells.getD i default).openAmount - fillAt sells si pms i ∧
      ((matchOrders buys sells P).2.1.getD i default).remainingOfferCoin
          = (sells.getD i default).remainingOfferCoin - fillAt sells si pms i ∧
      ((matchOrders buys sells P).2.1.getD i default).receivedDemandCoin
          = (sells.getD i default).receivedDemandCoin
            + ⌊P * ((fillAt sells si pms i : ℤ) : ℚ)⌋ ∧
      ((matchOrders buys sells P).2.1.getD i default).matched = true) := by
  obtain ⟨hb1, hb2, _, _, _, h6, _, _, _⟩ := flmo_spec buys sells P bi si pmb pms h
  have hm : matchOrders buys sells P
      = (applyBuyFills P buys bi pmb, applySellFills P sells si pms,
          some (buyPaidSum P buys bi pmb - sellRecvSum P sells si pms)) := by
    rw [matchOrders, h]
  rw [hm]
  constructor
  · intro i hi hib
    rw [getD_applyBuyFills P buys bi pmb i hi]
    rcases lt_or_eq_of_le hib with hlt | heq
    · have hfill : fillAt buys bi pmb i = (buys.getD i default).openAmount := by
        rw [fillAt, if_pos hlt]
      rw [if_pos hlt, hfill]
      simp [applyBuyFill]
    · subst heq
      have hfill : fillAt buys i pmb i = pmb := by
        rw [fillAt, if_neg (lt_irrefl i)]
      rw [if_neg (lt_irrefl i), if_pos rfl, hfill]
      simp [applyBuyFill]
  · intro i hi hii
    rw [getD_applySellFills P sells si pms i hi]
    rcases lt_or_eq_of_le hii with hlt | heq
    · have hfq : (0 : ℚ) ≤ P * (((sells.getD i default).openAmount : ℤ) : ℚ) := by
        apply mul_nonneg hP
        exact_mod_cast hs _ (getD_mem hi)
      have hfill : fillAt sells si pms i = (sells.getD i default).openAmount := by
        rw [fillAt, if_pos hlt]
      rw [if_pos hlt, hfill]
      simp only [applySellFill]
      rw [truncInt_eq_floor hfq]
      simp
    · subst heq
      have hfq : (0 : ℚ) ≤ P * ((pms : ℤ) : ℚ) := by
        apply mul_nonneg hP
        exact_mod_cast le_of_lt h6
      have hfill : fillAt sells i pms i = pms := by
        rw [fillAt, if_neg (lt_irrefl i)]
      rw [if_neg (lt_irrefl i), if_pos rfl, hfill]
      simp only [applySellFill]
      rw [truncInt_eq_floor hfq]
      simp

def cexBuys2 : List Order :=
  [⟨1, OrderDirection.Buy, 1, 1, 1, 10, 0, false, 0⟩]

def cexSells2 : List Order :=
  [⟨2, OrderDirection.Sell, 1, 1, 1, 10, 0, false, 0⟩]

/-- Counterexample for claim C5 as stated: the matched buy order's
remaining offer coin is NOT incremented by `⌈P·fill⌉` (here `fill = 1`,
`⌈P·fill⌉ = 1`, and the coin moves from 10 to 9, not 11): `MatchOrders`
decrements it. -/
theorem matchOrders_fill_updates_cex :
    ((matchOrders cexBuys2 cexSells2 1).1.getD 0 default).remainingOfferCoin ≠
      (cexBuys2.getD 0 default).remainingOfferCoin + ⌈(1 : ℚ) * ((1 : ℤ) : ℚ)⌉ := by
  with_unfolding_all decide

theorem matchOrders_fill_updates_witness :
    ((matchOrders cexBuys2 cexSells2 1).1.getD 0 default).openAmount
        = (cexBuys2.getD 0 default).openAmount - fillAt cexBuys2 0 1 0 ∧
    ((matchOrders cexBuys2 cexSells2 1).1.getD 0 default).remainingOfferCoin
        = (cexBuys2.getD 0 default).remainingOfferCoin
          - ⌈(1 : ℚ) * ((fillAt cexBuys2 0 1 0 : ℤ) : ℚ)⌉ ∧
    ((matchOrders cexBuys2 cexSells2 1).1.getD 0 default).receivedDemandCoin
        = (cexBuys2.getD 0 default).receivedDemandCoin + fillAt cexBuys2 0 1 0 ∧
    ((matchOrders cexBuys2 cexSells2 1).1.getD 0 default).matched = true :=
  (matchOrders_fill_updates cexBuys2 cexSells2 1 0 0 1 1 (by norm_num)
    (by with_unfolding_all decide) (by with_unfolding_all decide)).1
    0 (by simp [cexBuys2]) (by simp)

/-!
## `MatchContext` (amm/match.go, lines 191–260)

`MatchContext = map[Order]*MatchResult` is modelled as a function from
orders to optional journal entries; `matchOrder` returns `none` to model the
Go `panic` on over-matching (no journal mutation is observable in that
case, since the panic aborts the transaction).
-/

structure MatchRecord where
  amount : ℤ
  price : ℚ
deriving DecidableEq, Repr

structure MatchResult where
  openAmount : ℤ
  matchRecords : List MatchRecord
deriving DecidableEq, Repr

def MatchCtx : Type := Order → Option MatchResult

def emptyMatchCtx : MatchCtx := fun _ => none

/-- Models `MatchContext.OpenAmount`: the journaled open amount, defaulting to the
order's full amount when the order is absent. -/
def ctxOpenAmount (ctx : MatchCtx) (o : Order) : ℤ :=
  match ctx o with
  | none => o.amount
  | some mr => mr.openAmount

/-- Models `MatchContext.MatchOrder`: appends a match record and decrements the
journaled open amount; `none` models the panic when `amt` exceeds the open
amount. -/
def matchOrder (ctx : MatchCtx) (o : Order) (amt : ℤ) (P : ℚ) : Option MatchCtx :=
  if ctxOpenAmount ctx o < amt then none
  else
    some (fun o2 =>
      if o2 = o then
        some ⟨((ctx o).getD ⟨o.amount, []⟩).openAmount - amt,
          ((ctx o).getD ⟨o.amount, []⟩).matchRecords ++ [⟨amt, P⟩]⟩
      else ctx o2)

/-- Models `MatchContext.MatchOrderFull`. -/
def matchOrderFull (ctx : MatchCtx) (o : Order) (P : ℚ) : MatchCtx :=
  if 0 < ctxOpenAmount ctx o then
    (matchOrder ctx o (ctxOpenAmount ctx o) P).getD ctx
  else ctx

/-- Models `MatchContext.MatchOrdersFull`. -/
def matchOrdersFull (ctx : MatchCtx) (orders : List Order) (P : ℚ) : MatchCtx :=
  orders.foldl (fun c o => matchOrderFull c o P) ctx

/-- Models `MatchContext.TotalOpenAmount`. -/
def ctxTotalOpen (ctx : MatchCtx) (orders : List Order) : ℤ :=
  (orders.map (fun o => ctxOpenAmount ctx o)).sum

/-- Models `MatchContext.MatchedAmount`. -/
def matchedAmount (ctx : MatchCtx) (o : Order) : ℤ :=
  match ctx o with
  | none => 0
  | some mr => o.amount - mr.openAmount

/-- Claim C6: `MatchOrder` with `amt ≤ open_amount` appends the record and
decrements the journaled open amount, leaving other orders untouched; with
`amt > open_amount` it fails (Go panic, modelled by `none`) with no
journal mutation observable. -/
theorem matchOrder_contract (ctx : MatchCtx) (o : Order) (amt : ℤ) (P : ℚ) :
    (ctxOpenAmount ctx o < amt → matchOrder ctx o amt P = none) ∧
    (amt ≤ ctxOpenAmount ctx o →
      ∃ c2, matchOrder ctx o amt P = some c2 ∧
        ctxOpenAmount c2 o = ctxOpenAmount ctx o - amt ∧
        (c2 o).map MatchResult.matchRecords
          = some (((ctx o).getD ⟨o.amount, []⟩).matchRecords ++ [⟨amt, P⟩]) ∧
        ∀ o2, o2 ≠ o → c2 o2 = ctx o2) := by
  constructor
  · intro hlt
    rw [matchOrder, if_pos hlt]
  · intro hle
    have hn : ¬(ctxOpenAmount ctx o < amt) := not_lt.mpr hle
    refine ⟨_, by rw [matchOrder, if_neg hn], ?_, ?_, ?_⟩
    · cases hc : ctx o <;> simp [ctxOpenAmount, hc]
    · simp
    · intro o2 ho2
      simp [ho2]

def wOrder : Order := ⟨7, OrderDirection.Sell, 1, 5, 5, 0, 0, false, 0⟩

theorem matchOrder_contract_witness :
    ∃ c2, matchOrder emptyMatchCtx wOrder 3 1 = some c2 ∧
      ctxOpenAmount c2 wOrder = ctxOpenAmount emptyMatchCtx wOrder - 3 ∧
      (c2 wOrder).map MatchResult.matchRecords
        = some (((emptyMatchCtx wOrder).getD ⟨wOrder.amount, []⟩).matchRecords
            ++ [⟨3, 1⟩]) ∧
      ∀ o2, o2 ≠ wOrder → c2 o2 = emptyMatchCtx o2 :=
  (matchOrder_contract emptyMatchCtx wOrder 3 1).2 (by with_unfolding_all decide)

/-!
## Journal invariant across operation sequences (claim C8)
-/

inductive MCOp where
  | mo : Order → ℤ → ℚ → MCOp
  | mof : Order → ℚ → MCOp
  | mosf : List Order → ℚ → MCOp

def applyOp (ctx : MatchCtx) : MCOp → Option MatchCtx
  | MCOp.mo o amt P => matchOrder ctx o amt P
  | MCOp.mof o P => some (matchOrderFull ctx o P)
  | MCOp.mosf os P => some (matchOrdersFull ctx os P)

def applyOps (ctx : MatchCtx) : List MCOp → Option MatchCtx
  | [] => some ctx
  | op :: ops => (applyOp ctx op).bind fun c => applyOps c ops

def sumRecAmts (rs : List MatchRecord) : ℤ :=
  (rs.map (fun r => r.amount)).sum

/-- The MatchResult invariant of the spec:
`open_amount = order.amount − Σ records.amount ≥ 0` for every journaled
order. -/
def ctxWF (ctx : MatchCtx) : Prop :=
  ∀ o mr, ctx o = some mr →
    mr.openAmount = o.amount - sumRecAmts mr.matchRecords ∧ 0 ≤ mr.openAmount

/-- States that `MatchOrder` is only ever called with nonnegative amounts (spec: the
Amount type is nonnegative). -/
def opNonneg : MCOp → Prop
  | MCOp.mo _ amt _ => 0 ≤ amt
  | MCOp.mof _ _ => True
  | MCOp.mosf _ _ => True

theorem matchOrder_preserves (ctx c2 : MatchCtx) (o : Order) (amt : ℤ) (P : ℚ)
    (hwf : ctxWF ctx) (hamt : 0 ≤ amt)
    (h : matchOrder ctx o amt P = some c2) :
    ctxWF c2 ∧ ∀ o2, ctxOpenAmount c2 o2 ≤ ctxOpenAmount ctx o2 := by
  have hg : ¬(ctxOpenAmount ctx o < amt) := by
    intro hc
    rw [matchOrder, if_pos hc] at h
    exact Option.noConfusion h
  rw [matchOrder, if_neg hg] at h
  simp only [Option.some.injEq] at h
  subst h
  constructor
  · intro o2 mr hmr
    by_cases ho2 : o2 = o
    · subst ho2
      dsimp only at hmr
      rw [if_pos rfl] at hmr
      injection hmr with hmr2
      subst hmr2
      cases hc : ctx o2 with
      | none =>
        have hopen : ctxOpenAmount ctx o2 = o2.amount := by simp [ctxOpenAmount, hc]
        rw [hopen] at hg
        simp [hc, sumRecAmts]
        omega
      | some mr0 =>
        obtain ⟨hinv, hpos⟩ := hwf o2 mr0 hc
        have hopen : ctxOpenAmount ctx o2 = mr0.openAmount := by simp [ctxOpenAmount, hc]
        rw [hopen] at hg
        simp [hc, sumRecAmts] at hinv ⊢
        omega
    · simp only [if_neg ho2] at hmr
      exact hwf o2 mr hmr
  · intro o2
    by_cases ho2 : o2 = o
    · subst ho2
      cases hc : ctx o2 <;>
        simp [ctxOpenAmount, hc] <;> omega
    · simp [ctxOpenAmount, if_neg ho2]

theorem matchOrderFull_preserves (ctx : MatchCtx) (o : Order) (P : ℚ)
    (hwf : ctxWF ctx) :
    ctxWF (matchOrderFull ctx o P) ∧
    ∀ o2, ctxOpenAmount (matchOrderFull ctx o P) o2 ≤ ctxOpenAmount ctx o2 := by
  by_cases hp : 0 < ctxOpenAmount ctx o
  · have hm : matchOrder ctx o (ctxOpenAmount ctx o) P
        = some (fun o2 =>
            if o2 = o then
              some ⟨((ctx o).getD ⟨o.amount, []⟩).openAmount - ctxOpenAmount ctx o,
                ((ctx o).getD ⟨o.amount, []⟩).matchRecords ++ [⟨ctxOpenAmount ctx o, P⟩]⟩
            else ctx o2) := by
      rw [matchOrder, if_neg (lt_irrefl _)]
    have hfull : matchOrderFull ctx o P
        = (fun o2 =>
            if o2 = o then
              some ⟨((ctx o).getD ⟨o.amount, []⟩).openAmount - ctxOpenAmount ctx o,
                ((ctx o).getD ⟨o.amount, []⟩).matchRecords ++ [⟨ctxOpenAmount ctx o, P⟩]⟩
            else ctx o2) := by
      rw [matchOrderFull, if_pos hp, hm]
      rfl
    rw [hfull]
    exact matchOrder_preserves ctx _ o (ctxOpenAmount ctx o) P hwf (le_of_lt hp) hm
  · rw [matchOrderFull, if_neg hp]
    exact ⟨hwf, fun o2 => le_refl _⟩

theorem matchOrdersFull_preserves (P : ℚ) :
    ∀ (orders : List Order) (ctx : MatchCtx), ctxWF ctx →
      ctxWF (matchOrdersFull ctx orders P) ∧
      ∀ o2, ctxOpenAmount (matchOrdersFull ctx orders P) o2 ≤ ctxOpenAmount ctx o2 := by
  intro orders
  induction orders with
  | nil => intro ctx hwf; exact ⟨hwf, fun _ => le_refl _⟩
  | cons o os ih =>
    intro ctx hwf
    obtain ⟨hwf1, hmono1⟩ := matchOrderFull_preserves ctx o P hwf
    obtain ⟨hwf2, hmono2⟩ := ih (matchOrderFull ctx o P) hwf1
    refine ⟨?_, ?_⟩
    · simpa [matchOrdersFull] using hwf2
    · intro o2
      have := le_trans (hmono2 o2) (hmono1 o2)
      simpa [matchOrdersFull] using this

/-- Claim C8: every successful sequence of journal operations preserves the
MatchResult invariant `open = amount − Σ records ≥ 0`, never increases any
order's open amount, and an absent order reads its full amount. -/
theorem matchContext_invariant (ctx ctx2 : MatchCtx) (ops : List MCOp)
    (hwf : ctxWF ctx) (hops : ∀ op ∈ ops, opNonneg op)
    (h : applyOps ctx ops = some ctx2) :
    ctxWF ctx2 ∧ (∀ o, ctxOpenAmount ctx2 o ≤ ctxOpenAmount ctx o) ∧
    (∀ o, ctx2 o = none → ctxOpenAmount ctx2 o = o.amount) := by
  induction ops generalizing ctx with
  | nil =>
    simp only [applyOps, Option.some.injEq] at h
    subst h
    exact ⟨hwf, fun _ => le_refl _, fun o ho => by simp [ctxOpenAmount, ho]⟩
  | cons op ops ih =>
    rw [applyOps] at h
    cases hap : applyOp ctx op with
    | none => rw [hap] at h; exact Option.noConfusion h
    | some c =>
      rw [hap] at h
      simp only [Option.some_bind] at h
      have hstep : ctxWF c ∧ ∀ o2, ctxOpenAmount c o2 ≤ ctxOpenAmount ctx o2 := by
        cases op with
        | mo o amt P =>
          exact matchOrder_preserves ctx c o amt P hwf
            (hops _ (by simp) : opNonneg (MCOp.mo o amt P)) hap
        | mof o P =>
          have hap2 : some (matchOrderFull ctx o P) = some c := hap
          injection hap2 with hc
          subst hc
          exact matchOrderFull_preserves ctx o P hwf
        | mosf os P =>
          have hap2 : some (matchOrdersFull ctx os P) = some c := hap
          injection hap2 with hc
          subst hc
          exact matchOrdersFull_preserves P os ctx hwf
      obtain ⟨hwfc, hmonoc⟩ := hstep
      obtain ⟨h1, h2, h3⟩ := ih c hwfc (fun op2 hop2 => hops op2 (List.mem_cons_of_mem _ hop2)) h
      exact ⟨h1, fun o => le_trans (h2 o) (hmonoc o), h3⟩

def wOps : List MCOp := [MCOp.mo wOrder 1 1, MCOp.mof wOrder 1]

def wCtx2 : MatchCtx := (applyOps emptyMatchCtx wOps).getD emptyMatchCtx

theorem matchContext_invariant_witness :
    ctxWF wCtx2 ∧ (∀ o, ctxOpenAmount wCtx2 o ≤ ctxOpenAmount emptyMatchCtx o) ∧
    (∀ o, wCtx2 o = none → ctxOpenAmount wCtx2 o = o.amount) :=
  matchContext_invariant emptyMatchCtx wCtx2 wOps
    (by intro o mr hmr; cases hmr)
    (by
      intro op hop
      simp only [wOps, List.mem_cons, List.not_mem_nil, or_false] at hop
      rcases hop with rfl | rfl
      · norm_num [opNonneg]
      · trivial)
    (by with_unfolding_all rfl)

/-!
## `DistributeOrderAmount` (amm/match.go, lines 127–189)

First pass: proportional share `MinInt(open, (amount/total).QuoTruncate ·
MulInt(amt).TruncateInt())` for each order with nonzero open amount.
Second pass: walk in order, each order takes `min(remaining, open, amount)`
more, until the remainder hits zero.  Orders whose final assignment is zero
— or, for sells, truncates to zero quote coin — are dropped and the whole
allocation restarts on the kept orders.  Finally each assignment is
committed through `MatchContext.MatchOrder`.

The Go maps write entries whose values depend only on the order itself (not
on iteration state), so the first pass is embedded structurally; the final
commit iterates a Go map in unspecified order — the embedding commits in
list order over deduplicated keys, which agrees up to the commutativity of
`matchOrder` on distinct orders.
-/

def TotalAmount (l : List Order) : ℤ :=
  (l.map (fun o => o.amount)).sum

def pass1 (ctx : MatchCtx) (totalAmt : ℤ) (amt : ℤ) : List Order → (Order → ℤ) × ℤ
  | [] => (fun _ => 0, 0)
  | o :: os =>
    if ctxOpenAmount ctx o = 0 then pass1 ctx totalAmt amt os
    else
      if 0 < min (ctxOpenAmount ctx o)
          (truncInt (quoTruncate (o.amount : ℚ) (totalAmt : ℚ) * (amt : ℚ))) then
        (Function.update (pass1 ctx totalAmt amt os).1 o
          (min (ctxOpenAmount ctx o)
            (truncInt (quoTruncate (o.amount : ℚ) (totalAmt : ℚ) * (amt : ℚ)))),
         (pass1 ctx totalAmt amt os).2
           + min (ctxOpenAmount ctx o)
              (truncInt (quoTruncate (o.amount : ℚ) (totalAmt : ℚ) * (amt : ℚ))))
      else pass1 ctx totalAmt amt os

def pass2 (ctx : MatchCtx) : List Order → (Order → ℤ) → ℤ → (Order → ℤ) × ℤ
  | [], f, r => (f, r)
  | o :: os, f, r =>
    if r = 0 then (f, r)
    else
      pass2 ctx os
        (Function.update f o (f o + min r (min (ctxOpenAmount ctx o) o.amount)))
        (r - min r (min (ctxOpenAmount ctx o) o.amount))

/-- The first-pass share as the code computes it (`S` is the total amount
over ALL orders, and the proportion is chopped to 18 decimals before the
final truncation). -/
def distribShare (ctx : MatchCtx) (orders : List Order) (amt : ℤ) (o : Order) : ℤ :=
  min (ctxOpenAmount ctx o)
    (truncInt (quoTruncate (o.amount : ℚ) ((TotalAmount orders : ℤ) : ℚ) * (amt : ℚ)))

/-- The first-pass share exactly as claim C3 words it: `S` ranges over the
orders with positive open amount only, and the proportion is an exact
rational whose product with `A` is floored once. -/
def claimShare (ctx : MatchCtx) (orders : List Order) (amt : ℤ) (o : Order) : ℤ :=
  min (ctxOpenAmount ctx o)
    ⌊(o.amount : ℚ)
        / ((TotalAmount (orders.filter (fun x => decide (0 < ctxOpenAmount ctx x))) : ℤ) : ℚ)
        * (amt : ℚ)⌋

theorem pass1_eval (ctx : MatchCtx) (totalAmt amt : ℤ) :
    ∀ (l : List Order) (o : Order),
      (pass1 ctx totalAmt amt l).1 o =
        if o ∈ l ∧ ctxOpenAmount ctx o ≠ 0 ∧
            0 < min (ctxOpenAmount ctx o)
              (truncInt (quoTruncate (o.amount : ℚ) (totalAmt : ℚ) * (amt : ℚ))) then
          min (ctxOpenAmount ctx o)
            (truncInt (quoTruncate (o.amount : ℚ) (totalAmt : ℚ) * (amt : ℚ)))
        else 0 := by
  intro l
  induction l with
  | nil => intro o; simp [pass1]
  | cons a os ih =>
    intro o
    by_cases hoa : o = a
    · subst hoa
      by_cases h1 : ctxOpenAmount ctx o = 0
      · rw [pass1, if_pos h1, ih o]
        simp [h1]
      · by_cases h2 : 0 < min (ctxOpenAmount ctx o)
            (truncInt (quoTruncate (o.amount : ℚ) (totalAmt : ℚ) * (amt : ℚ)))
        · rw [pass1, if_neg h1, if_pos h2]
          simp [Function.update_same, h1, h2]
        · rw [pass1, if_neg h1, if_neg h2, ih o]
          simp [h2]
    · have hmem : (o ∈ a :: os) = (o ∈ os) := by
        simp [List.mem_cons, hoa]
      by_cases h1 : ctxOpenAmount ctx a = 0
      · rw [pass1, if_pos h1, ih o]
        simp [List.mem_cons, hoa]
      · by_cases h2 : 0 < min (ctxOpenAmount ctx a)
            (truncInt (quoTruncate (a.amount : ℚ) (totalAmt : ℚ) * (amt : ℚ)))
        · rw [pass1, if_neg h1, if_pos h2]
          simp only [Function.update_noteq hoa]
          rw [ih o]
          simp [List.mem_cons, hoa]
        · rw [pass1, if_neg h1, if_neg h2, ih o]
          simp [List.mem_cons, hoa]

theorem pass2_stops (ctx : MatchCtx) :
    ∀ (l : List Order) (f : Order → ℤ), pass2 ctx l f 0 = (f, 0) := by
  intro l
  induction l with
  | nil => intro f; rfl
  | cons o os ih => intro f; rw [pass2, if_pos rfl]

/-- Claim C3 (amended): in the first pass an order with nonzero open amount
is assigned `min(open, truncInt(quoTruncate(amount, S) · A))` when that is
positive — where `S` is the total amount over ALL orders and the division
is chopped to 18 decimals before multiplying — and nothing otherwise; the
second pass walks the orders in priority order, adding
`take = min(R, open, amount)` to each order's share and decrementing `R`,
and stops as soon as `R = 0`. -/
theorem distribute_pass_spec (ctx : MatchCtx) (orders : List Order) (amt : ℤ)
    (_hS : 0 < TotalAmount orders) :
    (∀ o ∈ orders,
      (pass1 ctx (TotalAmount orders) amt orders).1 o =
        if ctxOpenAmount ctx o ≠ 0 ∧ 0 < distribShare ctx orders amt o then
          distribShare ctx orders amt o
        else 0) ∧
    (∀ (o : Order) (os : List Order) (f : Order → ℤ) (r : ℤ),
      pass2 ctx (o :: os) f r =
        if r = 0 then (f, r)
        else
          pass2 ctx os
            (Function.update f o (f o + min r (min (ctxOpenAmount ctx o) o.amount)))
            (r - min r (min (ctxOpenAmount ctx o) o.amount))) ∧
    (∀ (l : List Order) (f : Order → ℤ), pass2 ctx l f 0 = (f, 0)) := by
  refine ⟨?_, ?_, pass2_stops ctx⟩
  · intro o ho
    rw [pass1_eval ctx (TotalAmount orders) amt orders o]
    simp [ho, distribShare]
  · intro o os f r
    rw [pass2]

def cexO1 : Order := ⟨1, OrderDirection.Buy, 1, 10, 10, 0, 0, false, 0⟩
def cexO2 : Order := ⟨2, OrderDirection.Buy, 1, 10, 10, 0, 0, false, 0⟩

def cexOrders3 : List Order := [cexO1, cexO2]

/-- A journal in which `cexO2` is fully matched (open amount zero). -/
def cexCtx3 : MatchCtx := fun o => if o = cexO2 then some ⟨0, []⟩ else none

def cexP1 : Order := ⟨1, OrderDirection.Buy, 1, 10 ^ 18, 10 ^ 18, 0, 0, false, 0⟩
def cexP2 : Order := ⟨2, OrderDirection.Buy, 1, 2 * 10 ^ 18, 2 * 10 ^ 18, 0, 0, false, 0⟩

def cexOrders4 : List Order := [cexP1, cexP2]

/-- Counterexample for claim C3 as stated, in both respects: (1) the code
divides by the total amount of ALL orders, not only those with positive
open amount (shares 5 vs 10 at the first input); (2) the proportion is
truncated to 18 decimals before multiplying by `A`, so the share is not
`⌊(amount/S)·A⌋` (999999999999999999 vs 10^18 at the second input). -/
theorem distribute_pass_cex :
    (pass1 cexCtx3 (TotalAmount cexOrders3) 10 cexOrders3).1 cexO1
        ≠ claimShare cexCtx3 cexOrders3 10 cexO1 ∧
    (pass1 emptyMatchCtx (TotalAmount cexOrders4) (3 * 10 ^ 18) cexOrders4).1 cexP1
        ≠ claimShare emptyMatchCtx cexOrders4 (3 * 10 ^ 18) cexP1 := by
  constructor
  · with_unfolding_all decide
  · have htotal : TotalAmount cexOrders4 = 3 * 10 ^ 18 := by
      norm_num [TotalAmount, cexOrders4, cexP1, cexP2]
    have hopen : ctxOpenAmount emptyMatchCtx cexP1 = 10 ^ 18 := by
      norm_num [ctxOpenAmount, emptyMatchCtx, cexP1]
    have hq : quoTruncate ((cexP1.amount : ℤ) : ℚ) ((TotalAmount cexOrders4 : ℤ) : ℚ)
        = 333333333333333333 / 10 ^ 18 := by
      rw [htotal, quoTruncate, trunc18]
      have hr : ((cexP1.amount : ℤ) : ℚ) / ((3 * 10 ^ 18 : ℤ) : ℚ) = 1 / 3 := by
        norm_num [cexP1]
      rw [hr, truncInt, if_pos (by norm_num)]
      norm_num
    have hshare : distribShare emptyMatchCtx cexOrders4 (3 * 10 ^ 18) cexP1
        = 999999999999999999 := by
      rw [distribShare, hq, hopen, truncInt, if_pos (by norm_num)]
      norm_num
    have hcode : (pass1 emptyMatchCtx (TotalAmount cexOrders4) (3 * 10 ^ 18) cexOrders4).1 cexP1
        = 999999999999999999 := by
      rw [pass1_eval emptyMatchCtx (TotalAmount cexOrders4) (3 * 10 ^ 18) cexOrders4 cexP1]
      have hcond : cexP1 ∈ cexOrders4 ∧ ctxOpenAmount emptyMatchCtx cexP1 ≠ 0 ∧
          0 < min (ctxOpenAmount emptyMatchCtx cexP1)
            (truncInt (quoTruncate ((cexP1.amount : ℤ) : ℚ)
              ((TotalAmount cexOrders4 : ℤ) : ℚ) * ((3 * 10 ^ 18 : ℤ) : ℚ))) := by
        refine ⟨by simp [cexOrders4], by rw [hopen]; norm_num, ?_⟩
        rw [hopen, hq, truncInt, if_pos (by norm_num)]
        norm_num
      rw [if_pos hcond, hopen, hq, truncInt, if_pos (by norm_num)]
      norm_num
    have hpos1 : (0 : ℤ) < ctxOpenAmount emptyMatchCtx cexP1 := by
      rw [hopen]; norm_num
    have hpos2 : (0 : ℤ) < ctxOpenAmount emptyMatchCtx cexP2 := by
      norm_num [ctxOpenAmount, emptyMatchCtx, cexP2]
    have hfilter : cexOrders4.filter (fun x => decide (0 < ctxOpenAmount emptyMatchCtx x))
        = cexOrders4 := by
      simp [cexOrders4, hpos1, hpos2]
    have hclaim : claimShare emptyMatchCtx cexOrders4 (3 * 10 ^ 18) cexP1 = 10 ^ 18 := by
      rw [claimShare, hfilter, htotal, hopen]
      have hr : (cexP1.amount : ℚ) / ((3 * 10 ^ 18 : ℤ) : ℚ) * ((3 * 10 ^ 18 : ℤ) : ℚ)
          = 10 ^ 18 := by
        norm_num [cexP1]
      rw [hr]
      norm_num
    rw [hcode, hclaim]
    norm_num

theorem distribute_pass_spec_witness :
    (pass1 cexCtx3 (TotalAmount cexOrders3) 10 cexOrders3).1 cexO1 =
      if ctxOpenAmount cexCtx3 cexO1 ≠ 0 ∧ 0 < distribShare cexCtx3 cexOrders3 10 cexO1 then
        distribShare cexCtx3 cexOrders3 10 cexO1
      else 0 :=
  (distribute_pass_spec cexCtx3 cexOrders3 10 (by with_unfolding_all decide)).1
    cexO1 (by simp [cexOrders3])

/-!
## The zero-receive-drop recursion of `DistributeOrderAmount` (claim C4)
-/

/-- The final assignment function after both passes. -/
def distribF2 (ctx : MatchCtx) (orders : List Order) (amt : ℤ) : Order → ℤ :=
  (pass2 ctx orders (pass1 ctx (TotalAmount orders) amt orders).1
    (amt - (pass1 ctx (TotalAmount orders) amt orders).2)).1

/-- The matched-partition test: nonzero assignment, and for sell orders a
nonzero truncated quote amount. -/
def distribKeep (P : ℚ) (f : Order → ℤ) (o : Order) : Bool :=
  decide (f o ≠ 0) &&
    (decide (o.direction = OrderDirection.Buy) ||
      decide (0 < truncInt (P * ((f o : ℤ) : ℚ))))

def distribMatched (ctx : MatchCtx) (orders : List Order) (P : ℚ) (amt : ℤ) : List Order :=
  orders.filter (fun o => distribKeep P (distribF2 ctx orders amt) o)

def distribNotMatched (ctx : MatchCtx) (orders : List Order) (P : ℚ) (amt : ℤ) : List Order :=
  orders.filter (fun o => !(distribKeep P (distribF2 ctx orders amt) o))

/-- Committing the assignments through `MatchContext.MatchOrder` (the Go
code iterates the `matchedAmtByOrder` map; the embedding iterates the
deduplicated keys in list order). -/
def commitAll (P : ℚ) (f : Order → ℤ) : MatchCtx → List Order → Option MatchCtx
  | ctx, [] => some ctx
  | ctx, o :: os => (matchOrder ctx o (f o) P).bind fun c => commitAll P f c os

theorem filter_length_split (l : List Order) (p : Order → Bool) :
    (l.filter p).length + (l.filter (fun o => !(p o))).length = l.length := by
  induction l with
  | nil => simp
  | cons o os ih =>
    by_cases h : p o = true <;> simp [List.filter_cons, h] <;> omega

theorem distribMatched_length_lt (ctx : MatchCtx) (orders : List Order) (P : ℚ) (amt : ℤ)
    (h : 0 < (distribNotMatched ctx orders P amt).length) :
    (distribMatched ctx orders P amt).length < orders.length := by
  have := filter_length_split orders (fun o => distribKeep P (distribF2 ctx orders amt) o)
  rw [distribMatched]
  rw [distribNotMatched] at h
  omega

/-- The loop of `DistributeOrderAmount`, with explicit fuel (the candidate
list strictly shrinks on each restart, so `length + 1` steps always
suffice and the fuel-exhaustion branch is unreachable from the entry
fuel). -/
def distribGo (ctx : MatchCtx) (P : ℚ) (amt : ℤ) : ℕ → List Order → Option MatchCtx
  | 0, _ => none
  | fuel + 1, orders =>
    if 0 < (distribNotMatched ctx orders P amt).length then
      distribGo ctx P amt fuel (distribMatched ctx orders P amt)
    else
      commitAll P (distribF2 ctx orders amt) ctx
        (orders.dedup.filter (fun o => decide (distribF2 ctx orders amt o ≠ 0)))

/-- Embeds `DistributeOrderAmount`: restart on the matched orders while some order
was dropped; otherwise commit every nonzero assignment.  A `none` result
models a panic propagated from `MatchOrder`. -/
def DistributeOrderAmount (ctx : MatchCtx) (orders : List Order) (P : ℚ) (amt : ℤ) :
    Option MatchCtx :=
  distribGo ctx P amt (orders.length + 1) orders

theorem distribGo_fuel_irrel (ctx : MatchCtx) (P : ℚ) (amt : ℤ) :
    ∀ (f1 f2 : ℕ) (orders : List Order), orders.length < f1 → orders.length < f2 →
      distribGo ctx P amt f1 orders = distribGo ctx P amt f2 orders := by
  intro f1
  induction f1 with
  | zero => intro f2 orders h1 _; omega
  | succ f1 ih =>
    intro f2 orders h1 h2
    cases f2 with
    | zero => omega
    | succ f2 =>
      rw [distribGo, distribGo]
      by_cases hc : 0 < (distribNotMatched ctx orders P amt).length
      · rw [if_pos hc, if_pos hc]
        have hlt := distribMatched_length_lt ctx orders P amt hc
        exact ih f2 _ (by omega) (by omega)
      · rw [if_neg hc, if_neg hc]

def restartsGo (ctx : MatchCtx) (P : ℚ) (amt : ℤ) : ℕ → List Order → ℕ
  | 0, _ => 0
  | fuel + 1, orders =>
    if 0 < (distribNotMatched ctx orders P amt).length then
      restartsGo ctx P amt fuel (distribMatched ctx orders P amt) + 1
    else 0

/-- Number of zero-receive-drop restarts `DistributeOrderAmount` performs. -/
def distributeRestarts (ctx : MatchCtx) (orders : List Order) (P : ℚ) (amt : ℤ) : ℕ :=
  restartsGo ctx P amt (orders.length + 1) orders

theorem restartsGo_le (ctx : MatchCtx) (P : ℚ) (amt : ℤ) :
    ∀ (fuel : ℕ) (orders : List Order),
      restartsGo ctx P amt fuel orders ≤ orders.length := by
  intro fuel
  induction fuel with
  | zero => intro orders; rw [restartsGo]; omega
  | succ fuel ih =>
    intro orders
    rw [restartsGo]
    by_cases hc : 0 < (distribNotMatched ctx orders P amt).length
    · rw [if_pos hc]
      have hlt := distribMatched_length_lt ctx orders P amt hc
      have := ih (distribMatched ctx orders P amt)
      omega
    · rw [if_neg hc]
      omega

/-- Claim C4: `DistributeOrderAmount` restarts with exactly the matched
orders (a strictly smaller list) and the same target amount whenever the
zero-receive partition dropped an order, and the number of restarts is
bounded by the number of orders. -/
theorem distribute_termination (ctx : MatchCtx) (orders : List Order) (P : ℚ) (amt : ℤ) :
    distributeRestarts ctx orders P amt ≤ orders.length ∧
    (distribNotMatched ctx orders P amt ≠ [] →
      DistributeOrderAmount ctx orders P amt
          = DistributeOrderAmount ctx (distribMatched ctx orders P amt) P amt ∧
      (distribMatched ctx orders P amt).length < orders.length) := by
  constructor
  · exact restartsGo_le ctx P amt (orders.length + 1) orders
  · intro hne
    have h : 0 < (distribNotMatched ctx orders P amt).length :=
      List.length_pos.mpr hne
    have hlt := distribMatched_length_lt ctx orders P amt h
    refine ⟨?_, hlt⟩
    rw [DistributeOrderAmount, DistributeOrderAmount, distribGo, if_pos h]
    exact distribGo_fuel_irrel ctx P amt orders.length _ _ (by omega) (by omega)

def cexOrders5 : List Order := [⟨9, OrderDirection.Sell, 1, 1, 1, 0, 0, false, 0⟩]

theorem distribute_termination_witness :
    DistributeOrderAmount emptyMatchCtx cexOrders5 (1 / 2) 1
        = DistributeOrderAmount emptyMatchCtx
            (distribMatched emptyMatchCtx cexOrders5 (1 / 2) 1) (1 / 2) 1 ∧
    (distribMatched emptyMatchCtx cexOrders5 (1 / 2) 1).length < cexOrders5.length :=
  (distribute_termination emptyMatchCtx cexOrders5 (1 / 2) 1).2
    (by with_unfolding_all decide)

/-!
## `FindMatchPrice` (amm/match.go, lines 12–66)

`findFirstTrueCondition` wraps Go's `sort.Search` (binary search for the
first true index, `n` when none) in both the ascending and the descending
direction.  The tick lattice itself (amm/tick.go) is not among the provided
sources and is kept abstract; `Dec.QuoInt64(2)` truncates the scaled
integer, i.e. chops the exact half to 18 decimals.
-/

/-- The loop of Go's `sort.Search`, with fuel (the interval shrinks at each
step, so `n` steps always suffice). -/
def goSearchAux (f : ℕ → Bool) : ℕ → ℕ → ℕ → ℕ
  | 0, i, _ => i
  | fuel + 1, i, j =>
    if i < j then
      if f ((i + j) / 2) then goSearchAux f fuel i ((i + j) / 2)
      else goSearchAux f fuel ((i + j) / 2 + 1) j
    else i

/-- Go's `sort.Search(n, f)`. -/
def goSearch (n : ℕ) (f : ℕ → Bool) : ℕ := goSearchAux f n 0 n

theorem goSearchAux_spec (f : ℕ → Bool) (n : ℕ)
    (mono : ∀ a b : ℕ, a ≤ b → f a = true → f b = true) :
    ∀ fuel i j, i ≤ j → j ≤ n → j - i ≤ fuel →
      (∀ k, k < i → f k = false) → (∀ k, j ≤ k → k < n → f k = true) →
      i ≤ goSearchAux f fuel i j ∧ goSearchAux f fuel i j ≤ j ∧
      (∀ k, k < goSearchAux f fuel i j → f k = false) ∧
      (∀ k, goSearchAux f fuel i j ≤ k → k < n → f k = true) := by
  intro fuel
  induction fuel with
  | zero =>
    intro i j hij hjn hfuel hlow hhigh
    have : i = j := by omega
    subst this
    exact ⟨le_refl _, le_refl _, hlow, fun k hk hkn => hhigh k hk hkn⟩
  | succ fuel ih =>
    intro i j hij hjn hfuel hlow hhigh
    rw [goSearchAux]
    by_cases hlt : i < j
    · rw [if_pos hlt]
      by_cases hm : f ((i + j) / 2) = true
      · rw [if_pos hm]
        have hres := ih i ((i + j) / 2) (by omega) (by omega) (by omega) hlow
          (fun k hk hkn => mono _ _ hk hm)
        exact ⟨hres.1, le_trans hres.2.1 (by omega), hres.2.2⟩
      · rw [if_neg hm]
        have hm2 : f ((i + j) / 2) = false := by
          cases hfk : f ((i + j) / 2)
          · rfl
          · exact absurd hfk hm
        have hlow2 : ∀ k, k < (i + j) / 2 + 1 → f k = false := by
          intro k hk
          cases hfk : f k
          · rfl
          · exact absurd (mono k ((i + j) / 2) (by omega) hfk) (by simp [hm2])
        have hres := ih ((i + j) / 2 + 1) j (by omega) hjn (by omega) hlow2 hhigh
        exact ⟨le_trans (by omega) hres.1, hres.2.1, hres.2.2⟩
    · rw [if_neg hlt]
      have : i = j := by omega
      subst this
      exact ⟨le_refl _, le_refl _, hlow, fun k hk hkn => hhigh k hk hkn⟩

theorem goSearch_spec (n : ℕ) (f : ℕ → Bool)
    (mono : ∀ a b : ℕ, a ≤ b → f a = true → f b = true) :
    goSearch n f ≤ n ∧
    (∀ k, k < goSearch n f → f k = false) ∧
    (∀ k, goSearch n f ≤ k → k < n → f k = true) := by
  have h := goSearchAux_spec f n mono n 0 n (by omega) (le_refl _) (by omega)
    (by omega) (by intro k h1 h2; omega)
  exact ⟨h.2.1, h.2.2.1, h.2.2.2⟩

/-- Embeds `findFirstTrueCondition` (amm/match.go): first index in `[start, end]`
(possibly searching downward when `start ≥ end`) where `f` holds, using
`sort.Search`; `none` when the search runs past the range. -/
def findFirstTrueCondition (start endI : ℤ) (f : ℤ → Bool) : Option ℤ :=
  if start < endI then
    if endI < start + (goSearch (endI - start + 1).toNat (fun k => f (start + (k : ℤ))) : ℤ)
    then none
    else some (start + (goSearch (endI - start + 1).toNat (fun k => f (start + (k : ℤ))) : ℤ))
  else
    if start - (goSearch (start - endI + 1).toNat (fun k => f (start - (k : ℤ))) : ℤ) < endI
    then none
    else some (start - (goSearch (start - endI + 1).toNat (fun k => f (start - (k : ℤ))) : ℤ))

theorem findFirst_asc_spec (start endI : ℤ) (f : ℤ → Bool)
    (hlt : start < endI)
    (mono : ∀ a b : ℤ, a ≤ b → f a = true → f b = true) :
    (findFirstTrueCondition start endI f = none ↔
      ∀ k : ℤ, start ≤ k → k ≤ endI → f k = false) ∧
    (∀ i, findFirstTrueCondition start endI f = some i →
      start ≤ i ∧ i ≤ endI ∧ f i = true ∧
      ∀ k : ℤ, start ≤ k → k < i → f k = false) := by
  have hn : (((endI - start + 1).toNat : ℤ)) = endI - start + 1 :=
    Int.toNat_of_nonneg (by omega)
  have gmono : ∀ a b : ℕ, a ≤ b →
      f (start + (a : ℤ)) = true → f (start + (b : ℤ)) = true :=
    fun a b hab ha => mono _ _ (by omega) ha
  obtain ⟨h1, h2, h3⟩ :=
    goSearch_spec (endI - start + 1).toNat (fun k => f (start + (k : ℤ))) gmono
  rw [findFirstTrueCondition, if_pos hlt]
  set r := goSearch (endI - start + 1).toNat (fun k => f (start + (k : ℤ))) with hrdef
  constructor
  · constructor
    · intro hnone k hk1 hk2
      by_cases hcond : endI < start + (r : ℤ)
      · have hidx : start + (((k - start).toNat : ℤ)) = k := by
          rw [Int.toNat_of_nonneg (by omega)]; omega
        have hklt : (k - start).toNat < r := by omega
        have hkf := h2 _ hklt
        rw [← hidx]
        exact hkf
      · rw [if_neg hcond] at hnone
        exact Option.noConfusion hnone
    · intro hall
      have hfull : r = (endI - start + 1).toNat := by
        by_contra hne
        have hltn : r < (endI - start + 1).toNat := lt_of_le_of_ne h1 hne
        have htrue : f (start + (r : ℤ)) = true := h3 r (le_refl _) hltn
        have hfalse := hall (start + (r : ℤ)) (by omega) (by omega)
        simp [hfalse] at htrue
      rw [if_pos (show endI < start + (r : ℤ) by omega)]
  · intro i hi
    by_cases hcond : endI < start + (r : ℤ)
    · rw [if_pos hcond] at hi
      exact Option.noConfusion hi
    · rw [if_neg hcond] at hi
      injection hi with hi2
      subst hi2
      push_neg at hcond
      have hrlt : r < (endI - start + 1).toNat := by omega
      have htrue : f (start + (r : ℤ)) = true := h3 r (le_refl _) hrlt
      refine ⟨by omega, by omega, htrue, ?_⟩
      intro k hk1 hk2
      have hidx : start + (((k - start).toNat : ℤ)) = k := by
        rw [Int.toNat_of_nonneg (by omega)]; omega
      have hklt : (k - start).toNat < r := by omega
      have hkf := h2 _ hklt
      rw [← hidx]
      exact hkf

theorem findFirst_desc_spec (start endI : ℤ) (f : ℤ → Bool)
    (hle : endI ≤ start)
    (anti : ∀ a b : ℤ, a ≤ b → f b = true → f a = true) :
    (findFirstTrueCondition start endI f = none ↔
      ∀ k : ℤ, endI ≤ k → k ≤ start → f k = false) ∧
    (∀ i, findFirstTrueCondition start endI f = some i →
      endI ≤ i ∧ i ≤ start ∧ f i = true ∧
      ∀ k : ℤ, i < k → k ≤ start → f k = false) := by
  have hn : (((start - endI + 1).toNat : ℤ)) = start - endI + 1 :=
    Int.toNat_of_nonneg (by omega)
  have gmono : ∀ a b : ℕ, a ≤ b →
      f (start - (a : ℤ)) = true → f (start - (b : ℤ)) = true :=
    fun a b hab ha => anti _ _ (by omega) ha
  obtain ⟨h1, h2, h3⟩ :=
    goSearch_spec (start - endI + 1).toNat (fun k => f (start - (k : ℤ))) gmono
  rw [findFirstTrueCondition, if_neg (show ¬ start < endI by omega)]
  set r := goSearch (start - endI + 1).toNat (fun k => f (start - (k : ℤ))) with hrdef
  constructor
  · constructor
    · intro hnone k hk1 hk2
      by_cases hcond : start - (r : ℤ) < endI
      · have hidx : start - (((start - k).toNat : ℤ)) = k := by
          rw [Int.toNat_of_nonneg (by omega)]; omega
        have hklt : (start - k).toNat < r := by omega
        have hkf := h2 _ hklt
        rw [← hidx]
        exact hkf
      · rw [if_neg hcond] at hnone
        exact Option.noConfusion hnone
    · intro hall
      have hfull : r = (start - endI + 1).toNat := by
        by_contra hne
        have hltn : r < (start - endI + 1).toNat := lt_of_le_of_ne h1 hne
        have htrue : f (start - (r : ℤ)) = true := h3 r (le_refl _) hltn
        have hfalse := hall (start - (r : ℤ)) (by omega) (by omega)
        simp [hfalse] at htrue
      rw [if_pos (show start - (r : ℤ) < endI by omega)]
  · intro i hi
    by_cases hcond : start - (r : ℤ) < endI
    · rw [if_pos hcond] at hi
      exact Option.noConfusion hi
    · rw [if_neg hcond] at hi
      injection hi with hi2
      subst hi2
      push_neg at hcond
      have hrlt : r < (start - endI + 1).toNat := by omega
      have htrue : f (start - (r : ℤ)) = true := h3 r (le_refl _) hrlt
      refine ⟨by omega, by omega, htrue, ?_⟩
      intro k hk1 hk2
      have hidx : start - (((start - k).toNat : ℤ)) = k := by
        rw [Int.toNat_of_nonneg (by omega)]; omega
      have hklt : (start - k).toNat < r := by omega
      have hkf := h2 _ hklt
      rw [← hidx]
      exact hkf

structure OrderSource where
  highestBuyPrice : Option ℚ
  lowestSellPrice : Option ℚ
  buyAmountOver : ℚ → ℤ
  sellAmountUnder : ℚ → ℤ

/-- Modelled from the spec: the tick-lattice functions (`TickPrecision`,
`TickFromIndex`, `TickToIndex`, `LowestTick`, `HighestTick`, `RoundPrice`
of amm/tick.go) are not among the provided source files.  `FindMatchPrice`
uses them only through the index ↦ price map (monotone, per spec §4.1), the
index bounds, and the rounding function, so the grid is kept abstract. -/
structure TickPrec where
  tick : ℤ → ℚ
  roundPrice : ℚ → ℚ
  lowestIdx : ℤ
  highestIdx : ℤ

/-- The ascending search condition of `FindMatchPrice`:
`BuyAmountOver(tick(i+1)) ≤ SellAmountUnder(tick(i))`. -/
def condI (os : OrderSource) (tp : TickPrec) (i : ℤ) : Bool :=
  decide (os.buyAmountOver (tp.tick (i + 1)) ≤ os.sellAmountUnder (tp.tick i))

/-- The descending search condition of `FindMatchPrice`:
`BuyAmountOver(tick(j)) ≥ SellAmountUnder(tick(j-1))`. -/
def condJ (os : OrderSource) (tp : TickPrec) (j : ℤ) : Bool :=
  decide (os.sellAmountUnder (tp.tick (j - 1)) ≤ os.buyAmountOver (tp.tick j))

/-- Embeds `FindMatchPrice` (amm/match.go).  The midpoint
`TickFromIndex(i).Add(TickFromIndex(j)).QuoInt64(2)` chops the exact half
to 18 decimals (`Dec.QuoInt` truncates the scaled integer), hence the
`trunc18`. -/
def FindMatchPrice (os : OrderSource) (tp : TickPrec) : Option ℚ :=
  match os.highestBuyPrice with
  | none => none
  | some hb =>
    match os.lowestSellPrice with
    | none => none
    | some ls =>
      if hb < ls then none
      else
        match findFirstTrueCondition tp.lowestIdx tp.highestIdx (condI os tp) with
        | none => none
        | some i =>
          match findFirstTrueCondition tp.highestIdx tp.lowestIdx (condJ os tp) with
          | none => none
          | some j => some (tp.roundPrice (trunc18 ((tp.tick i + tp.tick j) / 2)))

/-- Claim C2: on a crossed book over a monotone `OrderSource`,
`FindMatchPrice` returns the rounded midpoint of `tick(i)` and `tick(j)`
where `i` is the smallest index in `[L, H]` satisfying the buy-side
condition and `j` the largest index satisfying the sell-side condition,
and `none` exactly when one of the two indexes does not exist. -/
theorem findMatchPrice_binary_search (os : OrderSource) (tp : TickPrec) (hb ls : ℚ)
    (hhb : os.highestBuyPrice = some hb) (hls : os.lowestSellPrice = some ls)
    (hcross : ls ≤ hb)
    (hmonoB : ∀ p q : ℚ, p ≤ q → os.buyAmountOver q ≤ os.buyAmountOver p)
    (hmonoS : ∀ p q : ℚ, p ≤ q → os.sellAmountUnder p ≤ os.sellAmountUnder q)
    (htick : ∀ a b : ℤ, a ≤ b → tp.tick a ≤ tp.tick b)
    (hLH : tp.lowestIdx < tp.highestIdx) :
    (∀ p, FindMatchPrice os tp = some p →
      ∃ i j, tp.lowestIdx ≤ i ∧ i ≤ tp.highestIdx ∧ condI os tp i = true ∧
        (∀ k, tp.lowestIdx ≤ k → k < i → condI os tp k = false) ∧
        tp.lowestIdx ≤ j ∧ j ≤ tp.highestIdx ∧ condJ os tp j = true ∧
        (∀ k, j < k → k ≤ tp.highestIdx → condJ os tp k = false) ∧
        p = tp.roundPrice (trunc18 ((tp.tick i + tp.tick j) / 2))) ∧
    (FindMatchPrice os tp = none ↔
      (∀ k, tp.lowestIdx ≤ k → k ≤ tp.highestIdx → condI os tp k = false) ∨
      (∀ k, tp.lowestIdx ≤ k → k ≤ tp.highestIdx → condJ os tp k = false)) := by
  have hmonoI : ∀ a b : ℤ, a ≤ b → condI os tp a = true → condI os tp b = true := by
    intro a b hab ha
    rw [condI, decide_eq_true_eq] at ha ⊢
    calc os.buyAmountOver (tp.tick (b + 1))
        ≤ os.buyAmountOver (tp.tick (a + 1)) := hmonoB _ _ (htick _ _ (by omega))
      _ ≤ os.sellAmountUnder (tp.tick a) := ha
      _ ≤ os.sellAmountUnder (tp.tick b) := hmonoS _ _ (htick _ _ hab)
  have hantiJ : ∀ a b : ℤ, a ≤ b → condJ os tp b = true → condJ os tp a = true := by
    intro a b hab hbt
    rw [condJ, decide_eq_true_eq] at hbt ⊢
    calc os.sellAmountUnder (tp.tick (a - 1))
        ≤ os.sellAmountUnder (tp.tick (b - 1)) := hmonoS _ _ (htick _ _ (by omega))
      _ ≤ os.buyAmountOver (tp.tick b) := hbt
      _ ≤ os.buyAmountOver (tp.tick a) := hmonoB _ _ (htick _ _ hab)
  obtain ⟨hIiff, hIsome⟩ :=
    findFirst_asc_spec tp.lowestIdx tp.highestIdx (condI os tp) hLH hmonoI
  obtain ⟨hJiff, hJsome⟩ :=
    findFirst_desc_spec tp.highestIdx tp.lowestIdx (condJ os tp) (le_of_lt hLH) hantiJ
  have hmp : FindMatchPrice os tp =
      (match findFirstTrueCondition tp.lowestIdx tp.highestIdx (condI os tp) with
        | none => none
        | some i =>
          match findFirstTrueCondition tp.highestIdx tp.lowestIdx (condJ os tp) with
          | none => none
          | some j => some (tp.roundPrice (trunc18 ((tp.tick i + tp.tick j) / 2)))) := by
    simp only [FindMatchPrice, hhb, hls]
    rw [if_neg (not_lt.mpr hcross)]
  rcases e1 : findFirstTrueCondition tp.lowestIdx tp.highestIdx (condI os tp) with _ | i <;>
    rcases e2 : findFirstTrueCondition tp.highestIdx tp.lowestIdx (condJ os tp) with _ | j <;>
    rw [e1] at hmp <;> try rw [e2] at hmp
  · constructor
    · intro p hp
      rw [hmp] at hp
      exact Option.noConfusion hp
    · rw [hmp]
      simp only [true_iff]
      exact Or.inl (hIiff.mp e1)
  · constructor
    · intro p hp
      rw [hmp] at hp
      exact Option.noConfusion hp
    · rw [hmp]
      simp only [true_iff]
      exact Or.inl (hIiff.mp e1)
  · constructor
    · intro p hp
      rw [hmp] at hp
      exact Option.noConfusion hp
    · rw [hmp]
      simp only [true_iff]
      exact Or.inr (hJiff.mp e2)
  · obtain ⟨hi1, hi2, hi3, hi4⟩ := hIsome i e1
    obtain ⟨hj1, hj2, hj3, hj4⟩ := hJsome j e2
    constructor
    · intro p hp
      rw [hmp] at hp
      injection hp with hp2
      exact ⟨i, j, hi1, hi2, hi3, hi4, hj1, hj2, hj3, hj4, hp2.symm⟩
    · rw [hmp]
      constructor
      · intro hcon
        exact Option.noConfusion hcon
      · intro hor
        rcases hor with hall | hall
        · have := hall i hi1 hi2
          simp [this] at hi3
        · have := hall j hj1 hj2
          simp [this] at hj3

def wOS : OrderSource := ⟨some 2, some 1, fun _ => 1, fun _ => 1⟩

def wTP : TickPrec := ⟨fun i => (i : ℚ), id, 0, 3⟩

theorem findMatchPrice_binary_search_witness :
    ∃ i j, wTP.lowestIdx ≤ i ∧ i ≤ wTP.highestIdx ∧ condI wOS wTP i = true ∧
      (∀ k, wTP.lowestIdx ≤ k → k < i → condI wOS wTP k = false) ∧
      wTP.lowestIdx ≤ j ∧ j ≤ wTP.highestIdx ∧ condJ wOS wTP j = true ∧
      (∀ k, j < k → k ≤ wTP.highestIdx → condJ wOS wTP k = false) ∧
      (3 / 2 : ℚ) = wTP.roundPrice (trunc18 ((wTP.tick i + wTP.tick j) / 2)) :=
  (findMatchPrice_binary_search wOS wTP 2 1 rfl rfl (by norm_num)
    (fun _ _ _ => le_refl 1) (fun _ _ _ => le_refl 1)
    (fun a b h => by show ((a : ℚ)) ≤ (b : ℚ); exact_mod_cast h)
    (by norm_num [wTP])).1 (3 / 2)
    (by with_unfolding_all decide)

/-!
## `OrderBook.InstantMatch` (amm/match.go, lines 68–125)

The order book holds price-sorted tick buckets (buys descending, sells
ascending; spec §3).  `InstantMatch` collects the ticks crossing the
reference price with cumulative open-amount sums, takes
`matchAmt = min(buy total, sell total)`, fully matches the ticks before the
marginal one on each side and distributes the remainder at the marginal
tick.
-/

structure OBTick where
  price : ℚ
  orders : List Order
deriving DecidableEq

structure OrderBook where
  buys : List OBTick
  sells : List OBTick
deriving DecidableEq

/-- The cumulative open-amount sums over collected ticks. -/
def tickSums (ctx : MatchCtx) : List OBTick → ℤ → List ℤ
  | [], _ => []
  | t :: ts, acc =>
    (acc + ctxTotalOpen ctx t.orders)
      :: tickSums ctx ts (acc + ctxTotalOpen ctx t.orders)

/-- The `distributeAmtToTicks` closure of `InstantMatch`. -/
def distToTicks (ctx : MatchCtx) (P : ℚ) (matchAmt : ℤ)
    (ticks : List OBTick) (sums : List ℤ) (lastIdx : ℕ) : Option MatchCtx :=
  let ctx1 := (ticks.take lastIdx).foldl (fun c t => matchOrdersFull c t.orders P) ctx
  let remaining := if lastIdx = 0 then matchAmt else matchAmt - sums.getD (lastIdx - 1) 0
  let lastOrders := (ticks.getD lastIdx ⟨0, []⟩).orders
  if ctxTotalOpen ctx1 lastOrders = remaining then
    some (matchOrdersFull ctx1 lastOrders P)
  else
    DistributeOrderAmount ctx1 lastOrders P remaining

/-- Embeds `OrderBook.InstantMatch`; `none` models a panic propagated from the
journal, `(ctx, false)` the no-match return. -/
def instantMatch (ob : OrderBook) (ctx : MatchCtx) (P : ℚ) : Option (MatchCtx × Bool) :=
  let bts := ob.buys.takeWhile (fun t => decide (P ≤ t.price))
  let sts := ob.sells.takeWhile (fun t => decide (t.price ≤ P))
  if bts.isEmpty || sts.isEmpty then some (ctx, false)
  else
    let bsums := tickSums ctx bts 0
    let ssums := tickSums ctx sts 0
    let matchAmt := min (bsums.getLastD 0) (ssums.getLastD 0)
    let bi := goSearch bsums.length (fun i => decide (matchAmt ≤ bsums.getD i 0))
    let si := goSearch ssums.length (fun i => decide (matchAmt ≤ ssums.getD i 0))
    (distToTicks ctx P matchAmt bts bsums bi).bind fun c2 =>
      (distToTicks c2 P matchAmt sts ssums si).map fun c3 => (c3, true)

theorem takeWhile_buy_nil_iff (P : ℚ) (l : List OBTick)
    (hsort : List.Pairwise (fun a b : OBTick => b.price ≤ a.price) l) :
    (l.takeWhile (fun t => decide (P ≤ t.price)) = [] ↔ ∀ t ∈ l, t.price < P) := by
  cases l with
  | nil => simp
  | cons a ts =>
    rw [List.takeWhile_cons]
    by_cases hp : P ≤ a.price
    · simp only [decide_eq_true_eq, if_pos hp]
      constructor
      · intro hcon; exact absurd hcon (by simp)
      · intro hall
        exact absurd (hall a (by simp)) (not_lt.mpr hp)
    · simp only [decide_eq_true_eq, if_neg hp]
      constructor
      · intro _ t ht
        rcases List.mem_cons.mp ht with rfl | hts
        · exact not_le.mp hp
        · exact lt_of_le_of_lt ((List.pairwise_cons.mp hsort).1 t hts) (not_le.mp hp)
      · intro _; trivial

theorem takeWhile_sell_nil_iff (P : ℚ) (l : List OBTick)
    (hsort : List.Pairwise (fun a b : OBTick => a.price ≤ b.price) l) :
    (l.takeWhile (fun t => decide (t.price ≤ P)) = [] ↔ ∀ t ∈ l, P < t.price) := by
  cases l with
  | nil => simp
  | cons a ts =>
    rw [List.takeWhile_cons]
    by_cases hp : a.price ≤ P
    · simp only [decide_eq_true_eq, if_pos hp]
      constructor
      · intro hcon; exact absurd hcon (by simp)
      · intro hall
        exact absurd (hall a (by simp)) (not_lt.mpr hp)
    · simp only [decide_eq_true_eq, if_neg hp]
      constructor
      · intro _ t ht
        rcases List.mem_cons.mp ht with rfl | hts
        · exact not_le.mp hp
        · exact lt_of_lt_of_le (not_le.mp hp) ((List.pairwise_cons.mp hsort).1 t hts)
      · intro _; trivial

theorem bind_map_true_snd {α : Type} (x : Option α) (g : α → Option α) (c : α) (m : Bool)
    (h : (x.bind fun a => (g a).map fun b => (b, true)) = some (c, m)) : m = true := by
  cases x with
  | none => simp at h
  | some a =>
    rw [Option.some_bind] at h
    cases hg : g a with
    | none => rw [hg] at h; simp at h
    | some b =>
      rw [hg] at h
      simp only [Option.map_some'] at h
      injection h with h2
      exact (congrArg Prod.snd h2).symm

/-- Claim C9 (amended): on a well-sorted book (buys descending, sells
ascending), whenever `InstantMatch` returns, it returns `false` exactly
when no buy tick has price ≥ the reference price or no sell tick has price
≤ it, and `true` otherwise. -/
theorem instantMatch_returns (ob : OrderBook) (ctx : MatchCtx) (P : ℚ)
    (ctx2 : MatchCtx) (m : Bool)
    (hbsort : List.Pairwise (fun a b : OBTick => b.price ≤ a.price) ob.buys)
    (hssort : List.Pairwise (fun a b : OBTick => a.price ≤ b.price) ob.sells)
    (h : instantMatch ob ctx P = some (ctx2, m)) :
    (m = false ↔ (∀ t ∈ ob.buys, t.price < P) ∨ (∀ t ∈ ob.sells, P < t.price)) := by
  rw [instantMatch] at h
  by_cases hempty :
      ((ob.buys.takeWhile (fun t => decide (P ≤ t.price))).isEmpty
        || (ob.sells.takeWhile (fun t => decide (t.price ≤ P))).isEmpty) = true
  · simp only [hempty, if_true, Option.some.injEq, Prod.mk.injEq] at h
    have hm : m = false := h.2.symm
    subst hm
    simp only [eq_self_iff_true, true_iff]
    rcases Bool.or_eq_true_iff.mp hempty with he | he
    · exact Or.inl ((takeWhile_buy_nil_iff P ob.buys hbsort).mp
        (List.isEmpty_iff.mp he))
    · exact Or.inr ((takeWhile_sell_nil_iff P ob.sells hssort).mp
        (List.isEmpty_iff.mp he))
  · rw [if_neg hempty] at h
    have hm : m = true := bind_map_true_snd _ _ _ _ h
    subst hm
    simp only [Bool.true_eq_false, false_iff]
    push_neg at hempty
    intro hor
    rcases hor with hall | hall
    · have := (takeWhile_buy_nil_iff P ob.buys hbsort).mpr hall
      rw [this] at hempty
      simp at hempty
    · have := (takeWhile_sell_nil_iff P ob.sells hssort).mpr hall
      rw [this] at hempty
      simp at hempty

def cexB1 : Order := ⟨21, OrderDirection.Buy, 1 / 2, 2, 2, 0, 0, false, 0⟩
def cexS1 : Order := ⟨22, OrderDirection.Sell, 1 / 2, 1, 1, 0, 0, false, 0⟩
def cexS2 : Order := ⟨23, OrderDirection.Sell, 1 / 2, 2, 2, 0, 0, false, 0⟩

def cexOB : OrderBook := ⟨[⟨1 / 2, [cexB1]⟩], [⟨1 / 2, [cexS1, cexS2]⟩]⟩

/-- Counterexample for claim C9 as stated: at reference price 1/2 the book
crosses (`InstantMatch` returns `true`) with `match_amt = min(2, 3) = 2`,
but the zero-receive rule drops BOTH sell orders at the marginal tick
(each would receive `⌊(1/2)·1⌋ = 0` quote), so the sell side's total open
amount stays 3: the newly matched sell amount is 0, not `match_amt`. -/
theorem instantMatch_cex :
    ((instantMatch cexOB emptyMatchCtx (1 / 2)).map (fun r => r.2) = some true) ∧
    ((instantMatch cexOB emptyMatchCtx (1 / 2)).map
        (fun r => ctxTotalOpen r.1 [cexS1, cexS2]) = some 3) ∧
    ctxTotalOpen emptyMatchCtx [cexS1, cexS2] = 3 ∧
    min (ctxTotalOpen emptyMatchCtx [cexB1]) (ctxTotalOpen emptyMatchCtx [cexS1, cexS2])
      = 2 := by
  with_unfolding_all decide

def cexOB2 : OrderBook := ⟨[], [⟨2, [cexS1]⟩]⟩

theorem instantMatch_returns_witness :
    (false = false ↔
      (∀ t ∈ cexOB2.buys, t.price < 1) ∨ (∀ t ∈ cexOB2.sells, (1 : ℚ) < t.price)) :=
  instantMatch_returns cexOB2 emptyMatchCtx 1 emptyMatchCtx false (by simp [cexOB2])
    (by simp [cexOB2]) (by with_unfolding_all rfl)
